import Mathlib

/-!
Verification of the version-compatibility checker, dependency validator and
package archiver of the jvcli repository (src/jvcli/utils.py), against the
natural-language specification.

The checker `is_version_compatible` delegates version parsing and specifier
matching to the `packaging` library (pinned `packaging>=24.2` in setup.py).
That library is embedded shallowly below, restricted to the fragment jvcli
exercises: versions made of a release segment `N(.N)*` and an optional
pre-release segment (phases a/alpha, b/beta, c/pre/preview/rc with an
optional number), case-insensitively, without the PEP 440 epoch, post, dev,
local, wildcard and arbitrary-equality features and without surrounding
whitespace or the optional leading v.  Specifier sets are comma-separated
clauses over the operators >=, <=, ==, !=, >, < with the library's
pre-release admission rules.
-/

/-- Parsed version (packaging.version.Version restricted as described above):
a release segment and an optional pre-release `(phase, number)` where the
canonical phases are encoded 0 = a, 1 = b, 2 = rc. -/
structure PyVersion where
  release : List Nat
  pre : Option (Nat × Nat)
deriving DecidableEq, Repr

/-- Release tuples are compared with trailing zeros removed
(packaging.version._cmpkey). -/
def stripTrailingZeros (l : List Nat) : List Nat :=
  (l.reverse.dropWhile (fun x => x == 0)).reverse

/-- Lexicographic comparison of release tuples (Python tuple comparison). -/
def cmpNatList : List Nat → List Nat → Ordering
  | [], [] => .eq
  | [], _ :: _ => .lt
  | _ :: _, [] => .gt
  | a :: as, b :: bs =>
    if a < b then .lt else if b < a then .gt else cmpNatList as bs

/-- Pre-release comparison: absence of a pre-release sorts above any
pre-release at the same release (Infinity in packaging.version._cmpkey). -/
def cmpPre : Option (Nat × Nat) → Option (Nat × Nat) → Ordering
  | none, none => .eq
  | none, some _ => .gt
  | some _, none => .lt
  | some (p, n), some (q, m) =>
    if p < q then .lt else if q < p then .gt
    else if n < m then .lt else if m < n then .gt else .eq

/-- Total order on versions via the comparison key of
packaging.version._cmpkey (restricted to release and pre). -/
def cmpVersion (v w : PyVersion) : Ordering :=
  match cmpNatList (stripTrailingZeros v.release) (stripTrailingZeros w.release) with
  | .eq => cmpPre v.pre w.pre
  | o => o

/-- Version equality (Version.__eq__, comparison-key equality: trailing
release zeros are insignificant, the pre-release tag is significant). -/
def veq (v w : PyVersion) : Bool := cmpVersion v w == .eq

/-- Version strict order (Version.__lt__). -/
def vlt (v w : PyVersion) : Bool := cmpVersion v w == .lt

/-- Version non-strict order (Version.__le__). -/
def vle (v w : PyVersion) : Bool := vlt v w || veq v w

/-- Version.major: the first release component, 0 when absent. -/
def PyVersion.major (v : PyVersion) : Nat := v.release.headD 0

/-- Version.minor: the second release component, 0 when absent. -/
def PyVersion.minor (v : PyVersion) : Nat := (v.release.drop 1).headD 0

/-- Version.micro: the third release component, 0 when absent. -/
def PyVersion.micro (v : PyVersion) : Nat := (v.release.drop 2).headD 0

/-- Version.is_prerelease (no dev segment in this fragment). -/
def PyVersion.isPre (v : PyVersion) : Bool := v.pre.isSome

/-- Equality of base versions, used by the < operator rule
(Version(prospective.base_version) == Version(spec.base_version)). -/
def baseVeq (v w : PyVersion) : Bool :=
  cmpNatList (stripTrailingZeros v.release) (stripTrailingZeros w.release) == .eq

/-- Numeric value of a decimal digit character. -/
def digitVal (c : Char) : Nat := c.toNat - '0'.toNat

/-- Value of a digit string (int() of a run of digits; leading zeros allowed). -/
def digitsToNat (l : List Char) : Nat := l.foldl (fun a c => 10 * a + digitVal c) 0

/-- Parse a nonempty run of digits as a number, returning the rest. -/
def parseNatPart (cs : List Char) : Option (Nat × List Char) :=
  let ds := cs.takeWhile Char.isDigit
  if ds.isEmpty then none
  else some (digitsToNat ds, cs.dropWhile Char.isDigit)

/-- Whether a character list starts with a decimal digit. -/
def headIsDigit : List Char → Bool
  | c :: _ => c.isDigit
  | [] => false

/-- Parse the release segment `N(.N)*`; a dot is consumed only when a digit
follows, so the pre-release segment may begin with a dot separator.  The
fuel argument only serves termination; `length + 1` is always sufficient. -/
def parseRelease : Nat → List Char → Option (List Nat × List Char)
  | 0, _ => none
  | fuel + 1, cs =>
    match parseNatPart cs with
    | none => none
    | some (n, rest) =>
      match rest with
      | '.' :: rest2 =>
        if headIsDigit rest2 then
          match parseRelease fuel rest2 with
          | some (ns, r) => some (n :: ns, r)
          | none => none
        else some ([n], rest)
      | _ => some ([n], rest)

/-- Pre-release separators admitted by PEP 440. -/
def isSep (c : Char) : Bool := c == '-' || c == '_' || c == '.'

/-- Drop one optional separator character. -/
def dropSep : List Char → List Char
  | c :: rest => if isSep c then rest else c :: rest
  | [] => []

/-- Pre-release phase words with their canonical encodings
(packaging maps alpha to a, beta to b, and c, pre, preview to rc);
longer words come first so that the longest spelling wins. -/
def phaseTable : List (List Char × Nat) :=
  [("alpha".data, 0), ("beta".data, 1), ("preview".data, 2), ("pre".data, 2),
   ("rc".data, 2), ("a".data, 0), ("b".data, 1), ("c".data, 2)]

/-- Strip a literal word from the front of a character list. -/
def stripWord : List Char → List Char → Option (List Char)
  | [], rest => some rest
  | _ :: _, [] => none
  | a :: ps, b :: rest => if a == b then stripWord ps rest else none

/-- Match the first phase word of the table that is a prefix of the input. -/
def matchPhase : List (List Char × Nat) → List Char → Option (Nat × List Char)
  | [], _ => none
  | (w, ph) :: tbl, cs =>
    match stripWord w cs with
    | some r => some (ph, r)
    | none => matchPhase tbl cs

/-- Parse the optional pre-release segment
`[-_.]? (a|b|c|rc|alpha|beta|pre|preview) [-_.]? N?`, which must exhaust the
input; an absent number means 0. -/
def parsePre (cs : List Char) : Option (Option (Nat × Nat)) :=
  match cs with
  | [] => some none
  | _ =>
    match matchPhase phaseTable (dropSep cs) with
    | none => none
    | some (ph, rest2) =>
      let rest3 := dropSep rest2
      let ds := rest3.takeWhile Char.isDigit
      if (rest3.dropWhile Char.isDigit).isEmpty then
        some (some (ph, digitsToNat ds))
      else none

/-- Parse a version from characters (packaging.version.parse on the fragment
described in the header; matching is case-insensitive).  A `none` result
models the InvalidVersion exception. -/
def parseVersionChars (cs : List Char) : Option PyVersion :=
  let low := cs.map Char.toLower
  match parseRelease (low.length + 1) low with
  | none => none
  | some (rel, rest) =>
    match parsePre rest with
    | none => none
    | some p => some ⟨rel, p⟩

/-- Parse a version from a string (the code points of a Python str are the
characters of the Lean string). -/
def parseVersion (s : String) : Option PyVersion := parseVersionChars s.data

/-- Specifier comparison operators covered by this embedding. -/
inductive SpecOp where
  | ge | le | eq | ne | gt | lt
deriving DecidableEq, Repr

/-- One specifier clause, an operator together with its version. -/
structure SpecClause where
  op : SpecOp
  ver : PyVersion
deriving DecidableEq, Repr

/-- Characters treated as whitespace by the strip operations. -/
def isWS (c : Char) : Bool := c.isWhitespace

/-- Python str.strip: remove leading and trailing whitespace. -/
def trimChars (cs : List Char) : List Char :=
  ((cs.dropWhile isWS).reverse.dropWhile isWS).reverse

/-- Split a character list at every comma (Python str.split on a comma). -/
def splitComma : List Char → List (List Char)
  | [] => [[]]
  | c :: rest =>
    if c == ',' then [] :: splitComma rest
    else
      match splitComma rest with
      | g :: gs => (c :: g) :: gs
      | [] => [[c]]

/-- Parse one specifier clause: an operator followed by a version, with
optional whitespace in between (packaging.specifiers.Specifier on the
operators of this fragment).  A `none` models InvalidSpecifier. -/
def parseClause (cs : List Char) : Option SpecClause :=
  match cs with
  | c1 :: c2 :: rest =>
    if c1 == '>' && c2 == '=' then
      (parseVersionChars (rest.dropWhile isWS)).map (fun v => ⟨.ge, v⟩)
    else if c1 == '<' && c2 == '=' then
      (parseVersionChars (rest.dropWhile isWS)).map (fun v => ⟨.le, v⟩)
    else if c1 == '=' && c2 == '=' then
      (parseVersionChars (rest.dropWhile isWS)).map (fun v => ⟨.eq, v⟩)
    else if c1 == '!' && c2 == '=' then
      (parseVersionChars (rest.dropWhile isWS)).map (fun v => ⟨.ne, v⟩)
    else if c1 == '>' then
      (parseVersionChars ((c2 :: rest).dropWhile isWS)).map (fun v => ⟨.gt, v⟩)
    else if c1 == '<' then
      (parseVersionChars ((c2 :: rest).dropWhile isWS)).map (fun v => ⟨.lt, v⟩)
    else none
  | _ => none

/-- Parse a specifier set: split on commas, strip each piece, drop empty
pieces, parse every remaining piece (packaging.specifiers.SpecifierSet).
A `none` models InvalidSpecifier escaping the constructor. -/
def parseSpecSet (cs : List Char) : Option (List SpecClause) :=
  (((splitComma cs).map trimChars).filter (fun p => !p.isEmpty)).mapM parseClause

/-- Specifier.prereleases: a clause admits pre-releases when its operator is
inclusive (==, >=, <=) and its version is itself a pre-release. -/
def clausePrereleases (c : SpecClause) : Bool :=
  match c.op with
  | .eq | .ge | .le => c.ver.isPre
  | _ => false

/-- Specifier.contains for one clause under a resolved prereleases flag.
The < operator refuses a pre-release of the very version named in the
clause unless that version is itself a pre-release; the post-release and
local rules of > are vacuous in this fragment. -/
def clauseContains (pres : Bool) (c : SpecClause) (v : PyVersion) : Bool :=
  if v.isPre && !pres then false
  else
    match c.op with
    | .ge => vle c.ver v
    | .le => vle v c.ver
    | .eq => veq v c.ver
    | .ne => !veq v c.ver
    | .gt => vlt c.ver v
    | .lt => vlt v c.ver && !(v.isPre && !c.ver.isPre && baseVeq v c.ver)

/-- SpecifierSet.prereleases with no explicit override: true when some
clause admits pre-releases. -/
def specSetPrereleases (specs : List SpecClause) : Bool :=
  specs.any clausePrereleases

/-- SpecifierSet.contains (the membership test `version in spec_set`): a
pre-release version is refused outright unless some clause admits
pre-releases, and otherwise every clause must hold.  The empty set accepts
every non-pre-release version. -/
def specSetContains (specs : List SpecClause) (v : PyVersion) : Bool :=
  let pres := specSetPrereleases specs
  if v.isPre && !pres then false
  else specs.all (fun c => clauseContains pres c v)

/-- Decimal digit characters in order. -/
def digitChar : Nat → Char
  | 0 => '0' | 1 => '1' | 2 => '2' | 3 => '3' | 4 => '4'
  | 5 => '5' | 6 => '6' | 7 => '7' | 8 => '8' | _ => '9'

/-- Decimal rendering of a natural number (Python str on an int).  The fuel
argument only serves termination and `n + 1` is always sufficient. -/
def natCharsAux : Nat → Nat → List Char
  | 0, _ => []
  | fuel + 1, n =>
    if n < 10 then [digitChar n]
    else natCharsAux fuel (n / 10) ++ [digitChar (n % 10)]

/-- Decimal rendering of a natural number (Python str on an int). -/
def natChars (n : Nat) : List Char := natCharsAux (n + 1) n

/-- Tilde-shorthand rewrite of is_version_compatible: with parsed base `pb`
of the remainder `base`, the specifier becomes
the characters of the Python f-string `>={base},<{major}.{minor + 1}`. -/
def tildeRewrite (base : List Char) (pb : PyVersion) : List Char :=
  '>' :: '=' :: (base ++ ',' :: '<' :: (natChars pb.major ++ '.' :: natChars (pb.minor + 1)))

/-- Caret-shorthand rewrite of is_version_compatible: with parsed base `pb`
of the remainder `base`, the specifier becomes the characters of
`>={base},<{upper}` where upper is `{major + 1}.0.0` when major is
positive, else `0.{minor + 1}.0` when minor is positive, else
`0.0.{micro + 1}`. -/
def caretRewrite (base : List Char) (pb : PyVersion) : List Char :=
  let upper : List Char :=
    if pb.major > 0 then natChars (pb.major + 1) ++ ['.', '0', '.', '0']
    else if pb.minor > 0 then '0' :: '.' :: (natChars (pb.minor + 1) ++ ['.', '0'])
    else '0' :: '.' :: '0' :: '.' :: natChars (pb.micro + 1)
  '>' :: '=' :: (base ++ ',' :: '<' :: upper)

/-- Tilde step of is_version_compatible: when the specifier starts with a
tilde, parse the remainder as the base version and rewrite; a parse failure
is an exception reaching the outer handler (modelled by error). -/
def applyTilde (ss : List Char) : Except Unit (List Char) :=
  match ss with
  | '~' :: base =>
    match parseVersionChars base with
    | none => .error ()
    | some pb => .ok (tildeRewrite base pb)
  | _ => .ok ss

/-- Caret step of is_version_compatible, applied to the outcome of the
tilde step exactly as the source re-inspects the reassigned variable. -/
def applyCaret (ss : List Char) : Except Unit (List Char) :=
  match ss with
  | '^' :: base =>
    match parseVersionChars base with
    | none => .error ()
    | some pb => .ok (caretRewrite base pb)
  | _ => .ok ss

/-- Body of the outer try of is_version_compatible (src/jvcli/utils.py lines
91 to 132): parse the version; try the specifier as a bare version and on
success return structural equality (the inner try swallows only this parse
failure); otherwise apply the tilde and caret rewrites and evaluate the
specifier set.  An error is an exception reaching the outer handler. -/
def compatAttempt (version specifiers : String) : Except Unit Bool :=
  match parseVersion version with
  | none => .error ()
  | some v =>
    match parseVersion specifiers with
    | some exact => .ok (veq v exact)
    | none =>
      match applyTilde specifiers.data with
      | .error e => .error e
      | .ok ss1 =>
        match applyCaret ss1 with
        | .error e => .error e
        | .ok ss2 =>
          match parseSpecSet ss2 with
          | none => .error ()
          | some specs => .ok (specSetContains specs v)

/-- jvcli.utils.is_version_compatible: the outer except swallows every
exception and yields False. -/
def is_version_compatible (version specifiers : String) : Bool :=
  match compatAttempt version specifiers with
  | .ok b => b
  | .error _ => false

/-- Value of one entry of the dependency map handed to validate_dependencies:
either a bare specifier string or a nested mapping from package name to
specifier (insertion order preserved, as for a Python dict). -/
inductive DepValue where
  | spec (s : String)
  | group (entries : List (String × String))
deriving DecidableEq, Repr

/-- Single-quote wrapping used by the Python repr of a plain string. -/
def pyQuote (s : String) : String :=
  (Char.ofNat 39).toString ++ s ++ (Char.ofNat 39).toString

/-- Rendering of a DepValue inside a Python f-string: a string renders as
itself, a dict as its repr (quoted keys and values for the string-to-string
dicts appearing here). -/
def DepValue.pyStr : DepValue → String
  | .spec s => s
  | .group m =>
    "\x7b" ++ String.intercalate ", "
      (m.map fun kv => pyQuote kv.1 ++ ": " ++ pyQuote kv.2) ++ "\x7d"

/-- is_version_compatible applied to a raw dependency value: a dict value
raises TypeError inside parse_version, which the outer except of
is_version_compatible turns into False. -/
def compatValue (currentVersion : String) : DepValue → Bool
  | .spec s => is_version_compatible currentVersion s
  | .group _ => false

/-- jvcli.utils.validate_dependencies (lines 140 to 157).  The registry
lookup RegistryAPI.download_package with suppress_error=True is the
external collaborator, passed as the oracle `lookup` (true when a truthy
package is returned); `currentVersion` is the module global
jvcli.__version__.  The error value is the missing_dependencies list
carried by the raised ValueError.  The second accumulation condition
keeps the dead conjunct of the source (line 153): inside the non-jivas
arm it additionally requires the key to equal jivas. -/
def validate_dependencies (lookup : String → DepValue → Bool)
    (currentVersion : String) (dependencies : List (String × DepValue)) :
    Except (List String) Unit :=
  let missing := dependencies.foldl
    (fun acc kv =>
      if kv.1 == "jivas" then
        if !compatValue currentVersion kv.2 then acc ++ ["jivas " ++ kv.2.pyStr]
        else acc
      else
        if !(lookup kv.1 kv.2) && kv.1 == "jivas" then
          acc ++ [kv.1 ++ " " ++ kv.2.pyStr]
        else acc)
    []
  if missing.isEmpty then .ok () else .error missing

/-- Characterization of the failures validate_dependencies records over its
full pass: exactly the jivas entries whose specifier the current platform
version does not satisfy, in map order. -/
def recordedFailures (currentVersion : String)
    (dependencies : List (String × DepValue)) : List String :=
  dependencies.filterMap fun kv =>
    if kv.1 == "jivas" && !compatValue currentVersion kv.2 then
      some ("jivas " ++ kv.2.pyStr)
    else none

/-- Filesystem tree entry: a regular file or a directory with its children
(sibling order is the order os.walk reports). -/
inductive FsEntry where
  | file (name : String)
  | dir (name : String) (children : List FsEntry)

/-- Names of the regular files of one directory level, in order. -/
def filesOf (entries : List FsEntry) : List String :=
  entries.filterMap fun e =>
    match e with
    | .file n => some n
    | .dir _ _ => none

/-- Subdirectories of one directory level with their children, in order. -/
def dirsOf (entries : List FsEntry) : List (String × List FsEntry) :=
  entries.filterMap fun e =>
    match e with
    | .file _ => none
    | .dir n c => some (n, c)

/-- Python list.remove guarded by a membership test: drop the first
directory carrying the given name, keep everything else. -/
def removeFirstNamed (x : String) :
    List (String × List FsEntry) → List (String × List FsEntry)
  | [] => []
  | d :: rest => if d.1 == x then rest else d :: removeFirstNamed x rest

/-- Pruning of compress_package_to_tgz (lines 175 to 178): remove the first
directory named __jac_gen__, then the first named __pycache__, from the
directory list of the walk. -/
def prunedDirs (entries : List FsEntry) : List (String × List FsEntry) :=
  removeFirstNamed "__pycache__" (removeFirstNamed "__jac_gen__" (dirsOf entries))

theorem mem_removeFirstNamed {d : String × List FsEntry} {x : String} :
    ∀ {l : List (String × List FsEntry)}, d ∈ removeFirstNamed x l → d ∈ l
  | [], h => by simp [removeFirstNamed] at h
  | a :: rest, h => by
    unfold removeFirstNamed at h
    by_cases hx : a.1 == x
    · simp [hx] at h
      exact List.mem_cons_of_mem a h
    · simp [hx] at h
      rcases h with h | h
      · exact h ▸ List.mem_cons_self a rest
      · exact List.mem_cons_of_mem a (mem_removeFirstNamed h)

theorem sizeOf_lt_of_mem_dirsOf {n : String} {c : List FsEntry}
    {entries : List FsEntry} (h : (n, c) ∈ dirsOf entries) :
    sizeOf c < sizeOf entries := by
  rcases List.mem_filterMap.mp h with ⟨e, he, hmap⟩
  have hlt := List.sizeOf_lt_of_mem he
  cases e with
  | file _ => simp at hmap
  | dir n2 c2 =>
    simp at hmap
    obtain ⟨h1, h2⟩ := hmap
    subst h2
    simp at hlt
    omega

theorem sizeOf_lt_of_mem_prunedDirs {n : String} {c : List FsEntry}
    {entries : List FsEntry} (h : (n, c) ∈ prunedDirs entries) :
    sizeOf c < sizeOf entries :=
  sizeOf_lt_of_mem_dirsOf (mem_removeFirstNamed (mem_removeFirstNamed h))

/-- Member names of the archive built by compress_package_to_tgz from one
directory level: os.walk yields the files of the level first (added under
the accumulated relative prefix), then recurses into the surviving
directories in order. -/
def tgzMembers (pre : String) (entries : List FsEntry) : List String :=
  (filesOf entries).map (fun n => pre ++ n) ++
    (prunedDirs entries).attach.flatMap
      (fun d => tgzMembers (pre ++ d.1.1 ++ "/") d.1.2)
termination_by sizeOf entries
decreasing_by
  exact sizeOf_lt_of_mem_prunedDirs d.2

/-- jvcli.utils.compress_package_to_tgz (lines 160 to 183): archive the
source tree and return the output filename; the first component is the
member list of the produced archive. -/
def compress_package_to_tgz (source_tree : List FsEntry) (output_filename : String) :
    List String × String :=
  (tgzMembers "" source_tree, output_filename)

/-- Spec-side Archive Manifest of one entry (spec.md section 3 and 4.2): the
relative paths of all regular files, minus any subtree rooted at a
directory named __jac_gen__ or __pycache__, at any depth. -/
def manifestOf (pre : String) : FsEntry → List String
  | .file n => [pre ++ n]
  | .dir n c =>
    if n = "__jac_gen__" ∨ n = "__pycache__" then []
    else c.attach.flatMap fun e => manifestOf (pre ++ n ++ "/") e.1
termination_by e => sizeOf e
decreasing_by
  have := List.sizeOf_lt_of_mem e.2
  simp
  omega

/-- Spec-side Archive Manifest of a directory level. -/
def manifestLevel (pre : String) (entries : List FsEntry) : List String :=
  entries.flatMap (manifestOf pre)

/-- Boolean duplicate-freedom of a string list. -/
def nodupStr : List String → Bool
  | [] => true
  | x :: xs => !(xs.contains x) && nodupStr xs

/-- Whether a name contains a path separator. -/
def hasSlash (s : String) : Bool := s.data.contains '/'

/-- Name of a tree entry. -/
def entryName : FsEntry → String
  | .file n => n
  | .dir n _ => n

/-- Filesystem well-formedness of a source tree, at every level: entry
names carry no path separator, and sibling directory names are distinct
(both guaranteed for a directory an operating system walks). -/
def wfLevel (entries : List FsEntry) : Bool :=
  (entries.all fun e => !hasSlash (entryName e)) &&
    nodupStr ((dirsOf entries).map Prod.fst) &&
    ((dirsOf entries).attach.all fun d => wfLevel d.1.2)
termination_by sizeOf entries
decreasing_by
  exact sizeOf_lt_of_mem_dirsOf d.2

/-- Whether the source tree holds a regular file of the given name at the
end of the given directory path. -/
def hasFileAt : List FsEntry → List String → String → Bool
  | entries, [], fname =>
    entries.any fun e =>
      match e with
      | .file n => n == fname
      | .dir _ _ => false
  | entries, d :: ds, fname =>
    (dirsOf entries).any fun c => c.1 == d && hasFileAt c.2 ds fname

/-- Relative path of a file under a directory path. -/
def joinPath : List String → String → String
  | [], fname => fname
  | d :: ds, fname => d ++ "/" ++ joinPath ds fname

/-- Characters a parseable version may contain. -/
def allowedChar (c : Char) : Bool :=
  c.isDigit || c.isAlpha || c == '.' || c == '-' || c == '_'

/-- Rendering of a release list, used only to describe the f-string rewrites
of the shorthands: the components in decimal, separated by dots. -/
def renderRel : List Nat → List Char
  | [] => []
  | [n] => natChars n
  | n :: rest => natChars n ++ '.' :: renderRel rest

/-- Release list of the caret upper bound as built by the source f-strings. -/
def caretUpper (M N P : Nat) : List Nat :=
  if M > 0 then [M + 1, 0, 0]
  else if N > 0 then [0, N + 1, 0]
  else [0, 0, P + 1]

/-- Source tree of the concrete archiving scenario of the spec. -/
def exampleTree : List FsEntry :=
  [.file "file1.txt", .dir "subdir" [.file "file2.txt"],
   .dir "__jac_gen__" [.file "x"], .dir "__pycache__" [.file "y"]]

example : parseVersion "2.1.0" = some ⟨[2, 1, 0], none⟩ := by decide
example : parseVersion "1.0.0-alpha" = some ⟨[1, 0, 0], some (0, 0)⟩ := by decide
example : parseVersion "2.1.5a1" = some ⟨[2, 1, 5], some (0, 1)⟩ := by decide
example : parseVersion "1.0preview3" = some ⟨[1, 0], some (2, 3)⟩ := by decide
example : parseVersion "" = none := by decide
example : parseVersion "invalid" = none := by decide
example : parseVersion "1.2." = none := by decide
example : parseVersion "01.02.03" = some ⟨[1, 2, 3], none⟩ := by decide
example : veq ⟨[1, 0], none⟩ ⟨[1, 0, 0], none⟩ = true := by decide
example : vlt ⟨[1, 0, 0], some (0, 0)⟩ ⟨[1, 0, 0], none⟩ = true := by decide

example : natChars 0 = ['0'] := by decide
example : natChars 99 = ['9', '9'] := by decide
example : natChars 205 = ['2', '0', '5'] := by decide

example : is_version_compatible "1.0.0" "1.0.0" = true := by decide
example : is_version_compatible "2.1.0" ">=2.0.0,<3.0.0" = true := by decide
example : is_version_compatible "1.0.0" "^1.0.0" = true := by decide
example : is_version_compatible "1.2.3" "~1.2.0" = true := by decide
example : is_version_compatible "1.3.0" "~1.2.0" = false := by decide
example : is_version_compatible "2.0.0" "^1.2.0" = false := by decide
example : is_version_compatible "0.3.0" "^0.2.0" = false := by decide
example : is_version_compatible "2.1.5" "~2.1.0" = true := by decide
example : is_version_compatible "2.1.5" "~2.2.0" = false := by decide
example : is_version_compatible "" "1.0.0" = false := by decide
example : is_version_compatible "invalid" "1.0.0" = false := by decide
example : is_version_compatible "1.0.0" "invalid" = false := by decide
example : is_version_compatible "1.0" ">=invalid" = false := by decide
example : is_version_compatible "1.0.0" "" = true := by decide
example : is_version_compatible "1.0.0-alpha" "" = false := by decide
example : is_version_compatible "1.0.0-alpha" ">=1.0.0-alpha,<2.0.0" = true := by decide
example : is_version_compatible "1.0.0-alpha" ">=1.0.0,<2.0.0" = false := by decide
example : is_version_compatible "1.0.0-beta" "^1.0.0-alpha" = true := by decide
example : is_version_compatible "1.0.0-alpha" "1.0.0-alpha" = true := by decide
example : is_version_compatible "1.0.0-alpha" "1.0.0-beta" = false := by decide
example : is_version_compatible "2.1.5a1" "~2.1.0" = false := by decide

theorem attach_flatMap_eq {α β : Type} (l : List α) (g : α → List β) :
    (l.attach.flatMap fun x => g x.1) = l.flatMap g := by
  simp

theorem attach_all_eq {α : Type} (l : List α) (g : α → Bool) :
    (l.attach.all fun x => g x.1) = l.all g := by
  rw [Bool.eq_iff_iff]
  simp [List.all_eq_true]

/-- Unfolding of tgzMembers without the termination bookkeeping. -/
theorem tgzMembers_eq (pre : String) (entries : List FsEntry) :
    tgzMembers pre entries =
      (filesOf entries).map (fun n => pre ++ n) ++
        (prunedDirs entries).flatMap (fun d => tgzMembers (pre ++ d.1 ++ "/") d.2) := by
  rw [tgzMembers]
  rw [attach_flatMap_eq (prunedDirs entries) (fun d => tgzMembers (pre ++ d.1 ++ "/") d.2)]

theorem manifestOf_file (pre n : String) : manifestOf pre (.file n) = [pre ++ n] := by
  rw [manifestOf]

/-- Unfolding of manifestOf on a directory. -/
theorem manifestOf_dir (pre n : String) (c : List FsEntry) :
    manifestOf pre (.dir n c) =
      if n = "__jac_gen__" ∨ n = "__pycache__" then []
      else manifestLevel (pre ++ n ++ "/") c := by
  rw [manifestOf, manifestLevel]
  split
  · rfl
  · exact attach_flatMap_eq c (manifestOf (pre ++ n ++ "/"))

/-- Unfolding of wfLevel without the termination bookkeeping. -/
theorem wfLevel_eq (entries : List FsEntry) :
    wfLevel entries =
      ((entries.all fun e => !hasSlash (entryName e)) &&
        nodupStr ((dirsOf entries).map Prod.fst) &&
        (dirsOf entries).all (fun d => wfLevel d.2)) := by
  rw [wfLevel]
  rw [attach_all_eq (dirsOf entries) (fun d => wfLevel d.2)]

example :
    tgzMembers "" [.file "file1.txt", .dir "subdir" [.file "file2.txt"],
      .dir "__jac_gen__" [.file "x"], .dir "__pycache__" [.file "y"]] =
      ["file1.txt", "subdir/file2.txt"] := by
  have h1 : tgzMembers "subdir/" [.file "file2.txt"] = ["subdir/file2.txt"] := by
    rw [tgzMembers_eq]
    simp [filesOf, prunedDirs, dirsOf, removeFirstNamed]
  rw [tgzMembers_eq]
  simp [filesOf, prunedDirs, dirsOf, removeFirstNamed, h1]

example :
    wfLevel [.file "file1.txt", .dir "subdir" [.file "file2.txt"],
      .dir "__jac_gen__" [.file "x"], .dir "__pycache__" [.file "y"]] = true := by
  have h1 : wfLevel [.file "file2.txt"] = true := by
    rw [wfLevel_eq]
    simp [filesOf, dirsOf, nodupStr, hasSlash, entryName]
  have h2 : wfLevel [.file "x"] = true := by
    rw [wfLevel_eq]
    simp [filesOf, dirsOf, nodupStr, hasSlash, entryName]
  have h3 : wfLevel [.file "y"] = true := by
    rw [wfLevel_eq]
    simp [filesOf, dirsOf, nodupStr, hasSlash, entryName]
  rw [wfLevel_eq]
  simp [filesOf, dirsOf, nodupStr, hasSlash, entryName, h1, h2, h3]

theorem validate_foldl_eq (lookup : String → DepValue → Bool) (cur : String) :
    ∀ (deps : List (String × DepValue)) (acc : List String),
      deps.foldl
        (fun acc kv =>
          if kv.1 == "jivas" then
            if !compatValue cur kv.2 then acc ++ ["jivas " ++ kv.2.pyStr]
            else acc
          else
            if !(lookup kv.1 kv.2) && kv.1 == "jivas" then
              acc ++ [kv.1 ++ " " ++ kv.2.pyStr]
            else acc)
        acc = acc ++ recordedFailures cur deps
  | [], acc => by simp [recordedFailures]
  | kv :: deps, acc => by
    rw [List.foldl_cons, validate_foldl_eq lookup cur deps]
    unfold recordedFailures
    rw [List.filterMap_cons]
    by_cases hj : kv.1 == "jivas"
    · by_cases hc : compatValue cur kv.2
      · simp [hj, hc, recordedFailures]
      · simp [hj, hc, recordedFailures]
    · simp [hj, recordedFailures]

/-- Closed form of validate_dependencies: the full pass records exactly the
recordedFailures list and raises once at the end when it is nonempty. -/
theorem validate_dependencies_eq (lookup : String → DepValue → Bool)
    (cur : String) (deps : List (String × DepValue)) :
    validate_dependencies lookup cur deps =
      if (recordedFailures cur deps).isEmpty then .ok ()
      else .error (recordedFailures cur deps) := by
  unfold validate_dependencies
  rw [validate_foldl_eq lookup cur deps []]
  rw [List.nil_append]

/-- Claim C1 (code divergence): validate_dependencies on the dependency map
mapping the actions group to the nested mapping a to caret 1.0.0 returns
normally whatever the registry lookup answers — in particular with an
absent lookup — instead of recording a failure naming the group and the
nested mapping and raising: the recording condition of the non-jivas arm
(utils.py line 153) also demands the key equal jivas and can never hold. -/
theorem validate_dependencies_group_missing_never_raises :
    ∀ (lookup : String → DepValue → Bool) (cur : String),
      validate_dependencies lookup cur
        [("actions", DepValue.group [("a", "^1.0.0")])] = .ok () := by
  intro lookup cur
  simp [validate_dependencies]

/-- Claim C2 (code divergence): validate_dependencies never raises an
unknown-dependency-type error: a top-level key that is neither jivas nor a
known group key is sent to the registry lookup like any other key and the
call returns normally whatever the lookup answers. -/
theorem validate_dependencies_unknown_key_never_raises :
    ∀ (lookup : String → DepValue → Bool) (cur s : String),
      validate_dependencies lookup cur [("unknown", DepValue.spec s)] = .ok () := by
  intro lookup cur s
  simp [validate_dependencies]

/-- Claim C3: validate_dependencies traverses the whole dependency map,
never failing fast: it returns normally exactly when no failure was
recorded over the full pass and otherwise raises a single aggregate error
listing every recorded failure in map order; the empty map validates
vacuously, and a jivas entry whose specifier the current version does not
satisfy makes it raise naming that entry. -/
theorem validate_dependencies_aggregates :
    (∀ (lookup : String → DepValue → Bool) (cur : String),
      validate_dependencies lookup cur [] = .ok ()) ∧
    (∀ (lookup : String → DepValue → Bool) (cur : String)
        (deps : List (String × DepValue)),
      validate_dependencies lookup cur deps =
        if (recordedFailures cur deps).isEmpty then .ok ()
        else .error (recordedFailures cur deps)) ∧
    (∀ (lookup : String → DepValue → Bool) (cur s : String),
      is_version_compatible cur s = false →
        validate_dependencies lookup cur [("jivas", DepValue.spec s)] =
          .error ["jivas " ++ s]) := by
  refine ⟨fun lookup cur => ?_, fun lookup cur deps => ?_, fun lookup cur s h => ?_⟩
  · simp [validate_dependencies]
  · exact validate_dependencies_eq lookup cur deps
  · rw [validate_dependencies_eq]
    simp [recordedFailures, compatValue, h, DepValue.pyStr]

/-- Witness for claim C3 at the concrete scenario of the spec: the platform
version 2.1.0 does not satisfy the jivas specifier >=99.0.0, and
validation of that single-entry map raises naming it. -/
theorem validate_dependencies_aggregates_witness :
    is_version_compatible "2.1.0" ">=99.0.0" = false ∧
      validate_dependencies (fun _ _ => false) "2.1.0"
        [("jivas", DepValue.spec ">=99.0.0")] = .error ["jivas >=99.0.0"] := by
  refine ⟨by decide, ?_⟩
  have h := validate_dependencies_aggregates.2.2 (fun _ _ => false) "2.1.0"
    ">=99.0.0" (by decide)
  simpa using h

theorem cmpNatList_self : ∀ l : List Nat, cmpNatList l l = .eq
  | [] => rfl
  | a :: l => by simp [cmpNatList, cmpNatList_self l]

theorem cmpPre_self : ∀ p : Option (Nat × Nat), cmpPre p p = .eq
  | none => rfl
  | some (a, b) => by simp [cmpPre]

theorem veq_refl (v : PyVersion) : veq v v = true := by
  simp [veq, cmpVersion, cmpNatList_self, cmpPre_self]
  decide

/-- Claim C6: when the specifier itself parses as a bare version,
is_version_compatible returns the comparison-key equality of the two parsed
versions, pre-release tag included, without ever reaching the range
interpretation; hence every parseable version is compatible with itself. -/
theorem exact_specifier_structural_equality :
    (∀ (v s : String) (w : PyVersion), parseVersion s = some w →
      is_version_compatible v s =
        (match parseVersion v with
         | none => false
         | some pv => veq pv w)) ∧
    (∀ (v : String) (pv : PyVersion), parseVersion v = some pv →
      is_version_compatible v v = true) := by
  have main : ∀ (v s : String) (w : PyVersion), parseVersion s = some w →
      is_version_compatible v s =
        (match parseVersion v with
         | none => false
         | some pv => veq pv w) := by
    intro v s w hs
    cases hv : parseVersion v with
    | none => simp [is_version_compatible, compatAttempt, hv]
    | some pv => simp [is_version_compatible, compatAttempt, hv, hs]
  refine ⟨main, fun v pv hv => ?_⟩
  rw [main v v pv hv, hv]
  exact veq_refl pv

/-- Witness for claim C6: 1.2.3 parses and is compatible with itself. -/
theorem exact_specifier_structural_equality_witness :
    parseVersion "1.2.3" = some ⟨[1, 2, 3], none⟩ ∧
      is_version_compatible "1.2.3" "1.2.3" = true :=
  ⟨by decide,
    exact_specifier_structural_equality.2 "1.2.3" ⟨[1, 2, 3], none⟩ (by decide)⟩

/-- Claim C7 at the failing input: an empty version string is rejected
against every specifier, but a valid non-pre-release version against the
empty specifier string is ACCEPTED, because the empty string parses as the
empty specifier set, which admits every non-pre-release version; the
repository test tests/test_utils.py line 228 expects False here. -/
theorem empty_specifier_accepts_valid_version :
    is_version_compatible "1.0.0" "" = true ∧
      (∀ s : String, is_version_compatible "" s = false) := by
  refine ⟨by decide, fun s => ?_⟩
  have h : parseVersion "" = none := by decide
  simp [is_version_compatible, compatAttempt, h]

/-- Claim C8: every exception the body of is_version_compatible raises
(modelled as an error of compatAttempt — an unparseable version, an
unparseable shorthand base, or an unparseable specifier set) is swallowed
by the outer handler and yields False; in particular both of the concrete
malformed inputs of the spec yield False. -/
theorem compat_swallows_failures :
    (∀ v s : String, compatAttempt v s = .error () →
      is_version_compatible v s = false) ∧
    is_version_compatible "invalid" "1.0.0" = false ∧
    is_version_compatible "1.0.0" "invalid" = false := by
  refine ⟨fun v s h => ?_, by decide, by decide⟩
  simp [is_version_compatible, h]

/-- Witness for claim C8: the unparseable version string is an error of the
body and the function returns False there. -/
theorem compat_swallows_failures_witness :
    compatAttempt "invalid" "1.0.0" = .error () ∧
      is_version_compatible "invalid" "1.0.0" = false :=
  ⟨rfl, compat_swallows_failures.1 "invalid" "1.0.0" rfl⟩

theorem digitChar_isDigit (d : Nat) : (digitChar d).isDigit = true := by
  unfold digitChar
  split <;> decide

theorem digitChar_toLower (d : Nat) : (digitChar d).toLower = digitChar d := by
  unfold digitChar
  split <;> decide

theorem digitChar_allowed (d : Nat) : allowedChar (digitChar d) = true := by
  unfold digitChar
  split <;> decide

theorem digitVal_digitChar (d : Nat) (h : d < 10) : digitVal (digitChar d) = d := by
  interval_cases d <;> decide

theorem isDigit_ne_eqsign {c : Char} (h : c.isDigit = true) : (c == '=') = false := by
  by_contra hne
  simp at hne
  subst hne
  simp at h

theorem isWS_cases {c : Char} (h : isWS c = true) :
    c = ' ' ∨ c = '\t' ∨ c = '\r' ∨ c = '\n' := by
  simp [isWS, Char.isWhitespace] at h
  tauto

theorem isDigit_not_ws {c : Char} (h : c.isDigit = true) : isWS c = false := by
  by_contra hne
  simp at hne
  rcases isWS_cases hne with h1 | h1 | h1 | h1 <;> subst h1 <;> simp at h

theorem digitsToNat_append_one (l : List Char) (c : Char) :
    digitsToNat (l ++ [c]) = 10 * digitsToNat l + digitVal c := by
  simp [digitsToNat, List.foldl_append]

theorem natCharsAux_spec :
    ∀ (fuel n : Nat), n < fuel →
      natCharsAux fuel n ≠ [] ∧ (∀ c ∈ natCharsAux fuel n, ∃ d, d < 10 ∧ c = digitChar d) ∧
        digitsToNat (natCharsAux fuel n) = n := by
  intro fuel
  induction fuel with
  | zero => intro n h; omega
  | succ f ih =>
    intro n h
    unfold natCharsAux
    by_cases hn : n < 10
    · refine ⟨by simp [hn], ?_, ?_⟩
      · intro c hc
        simp [hn] at hc
        exact ⟨n, hn, hc⟩
      · simp [hn, digitsToNat, digitVal_digitChar n hn]
    · have hdiv : n / 10 < f := by omega
      obtain ⟨h1, h2, h3⟩ := ih (n / 10) hdiv
      refine ⟨by simp [hn], ?_, ?_⟩
      · intro c hc
        simp [hn] at hc
        rcases hc with hc | hc
        · exact h2 c hc
        · exact ⟨n % 10, by omega, hc⟩
      · simp only [hn, if_false]
        rw [digitsToNat_append_one, h3, digitVal_digitChar (n % 10) (by omega)]
        omega

theorem natChars_ne_nil (n : Nat) : natChars n ≠ [] :=
  (natCharsAux_spec (n + 1) n (Nat.lt_succ_self n)).1

theorem natChars_shape (n : Nat) :
    ∀ c ∈ natChars n, ∃ d, d < 10 ∧ c = digitChar d :=
  (natCharsAux_spec (n + 1) n (Nat.lt_succ_self n)).2.1

theorem digitsToNat_natChars (n : Nat) : digitsToNat (natChars n) = n :=
  (natCharsAux_spec (n + 1) n (Nat.lt_succ_self n)).2.2

theorem natChars_digits (n : Nat) : ∀ c ∈ natChars n, c.isDigit = true := by
  intro c hc
  obtain ⟨d, _, rfl⟩ := natChars_shape n c hc
  exact digitChar_isDigit d

theorem natChars_head (n : Nat) :
    ∃ c r, natChars n = c :: r ∧ c.isDigit = true := by
  cases h : natChars n with
  | nil => exact absurd h (natChars_ne_nil n)
  | cons c r =>
    exact ⟨c, r, rfl, natChars_digits n c (h ▸ List.mem_cons_self c r)⟩

theorem renderRel_shape :
    ∀ l : List Nat, ∀ c ∈ renderRel l, (∃ d, d < 10 ∧ c = digitChar d) ∨ c = '.'
  | [], c, hc => by simp [renderRel] at hc
  | [n], c, hc => Or.inl (natChars_shape n c hc)
  | n :: m :: rest, c, hc => by
    have he : renderRel (n :: m :: rest) = natChars n ++ '.' :: renderRel (m :: rest) := rfl
    rw [he] at hc
    rcases List.mem_append.mp hc with hc | hc
    · exact Or.inl (natChars_shape n c hc)
    · rcases List.mem_cons.mp hc with hc | hc
      · exact Or.inr hc
      · exact renderRel_shape (m :: rest) c hc

theorem renderRel_chars (l : List Nat) :
    ∀ c ∈ renderRel l, c.isDigit = true ∨ c = '.' := by
  intro c hc
  rcases renderRel_shape l c hc with ⟨d, _, rfl⟩ | h
  · exact Or.inl (digitChar_isDigit d)
  · exact Or.inr h

theorem renderRel_toLower (l : List Nat) :
    (renderRel l).map Char.toLower = renderRel l := by
  have h : ∀ c ∈ renderRel l, Char.toLower c = id c := by
    intro c hc
    rcases renderRel_shape l c hc with ⟨d, _, rfl⟩ | hd
    · exact digitChar_toLower d
    · subst hd; decide
  rw [List.map_congr_left h, List.map_id]

theorem takeWhile_eq_nil_of_head {p : Char → Bool} :
    ∀ {l : List Char}, headIsDigit l = false → p = Char.isDigit → l.takeWhile p = []
  | [], _, _ => rfl
  | c :: r, h, hp => by
    subst hp
    simp [headIsDigit] at h
    simp [List.takeWhile_cons, h]

theorem dropWhile_eq_self_of_head {l : List Char} (h : headIsDigit l = false) :
    l.dropWhile Char.isDigit = l := by
  cases l with
  | nil => rfl
  | cons c r =>
    simp [headIsDigit] at h
    simp [List.dropWhile_cons, h]

theorem parseNatPart_natChars (n : Nat) (rest : List Char)
    (h : headIsDigit rest = false) :
    parseNatPart (natChars n ++ rest) = some (n, rest) := by
  unfold parseNatPart
  rw [List.takeWhile_append_of_pos (natChars_digits n),
    List.dropWhile_append_of_pos (natChars_digits n)]
  rw [takeWhile_eq_nil_of_head h rfl, dropWhile_eq_self_of_head h]
  rw [List.append_nil]
  have hne := natChars_ne_nil n
  simp [List.isEmpty_iff, hne, digitsToNat_natChars]

theorem renderRel_head (l : List Nat) (h : l ≠ []) :
    ∃ c r, renderRel l = c :: r ∧ c.isDigit = true := by
  match l with
  | [n] =>
    obtain ⟨c, r, he, hd⟩ := natChars_head n
    exact ⟨c, r, he, hd⟩
  | n :: m :: rest =>
    have he : renderRel (n :: m :: rest) = natChars n ++ '.' :: renderRel (m :: rest) := rfl
    obtain ⟨c, r, hc, hd⟩ := natChars_head n
    exact ⟨c, r ++ '.' :: renderRel (m :: rest), by rw [he, hc]; rfl, hd⟩

theorem renderRel_len : ∀ l : List Nat, l.length ≤ (renderRel l).length
  | [] => by simp [renderRel]
  | [n] => by
    have := natChars_ne_nil n
    have : 1 ≤ (natChars n).length := by
      cases h : natChars n with
      | nil => exact absurd h this
      | cons c r => simp
    simpa [renderRel] using this
  | n :: m :: rest => by
    have he : renderRel (n :: m :: rest) = natChars n ++ '.' :: renderRel (m :: rest) := rfl
    have ih := renderRel_len (m :: rest)
    clear ih
    have ih := renderRel_len (m :: rest)
    have h1 : 1 ≤ (natChars n).length := by
      cases h : natChars n with
      | nil => exact absurd h (natChars_ne_nil n)
      | cons c r => simp
    rw [he]
    simp only [List.length_append, List.length_cons] at ih ⊢
    omega

theorem parseRelease_renderRel :
    ∀ (l : List Nat) (fuel : Nat), l ≠ [] → l.length ≤ fuel →
      parseRelease fuel (renderRel l) = some (l, [])
  | [], _, h, _ => absurd rfl h
  | [n], fuel, _, hf => by
    cases fuel with
    | zero => simp at hf
    | succ f =>
      show parseRelease (f + 1) (natChars n) = some ([n], [])
      unfold parseRelease
      have hp : parseNatPart (natChars n) = some (n, []) := by
        have := parseNatPart_natChars n [] rfl
        rwa [List.append_nil] at this
      rw [hp]
  | n :: m :: rest, fuel, _, hf => by
    cases fuel with
    | zero => simp at hf
    | succ f =>
      have he : renderRel (n :: m :: rest) = natChars n ++ '.' :: renderRel (m :: rest) := rfl
      obtain ⟨c, r, hc, hd⟩ := renderRel_head (m :: rest) (by simp)
      have hh : headIsDigit (renderRel (m :: rest)) = true := by
        rw [hc]; simpa [headIsDigit] using hd
      have hpn := parseNatPart_natChars n ('.' :: renderRel (m :: rest))
        (by simp [headIsDigit])
      have hrec := parseRelease_renderRel (m :: rest) f (by simp)
        (by simp only [List.length_cons] at hf ⊢; omega)
      rw [he]
      simp [parseRelease, hpn, hh, hrec]

theorem parseVersionChars_renderRel (l : List Nat) (h : l ≠ []) :
    parseVersionChars (renderRel l) = some ⟨l, none⟩ := by
  have hrel := parseRelease_renderRel l ((renderRel l).length + 1) h
    (Nat.le_succ_of_le (renderRel_len l))
  simp [parseVersionChars, renderRel_toLower, hrel, parsePre]

theorem isSep_allowed {c : Char} (h : isSep c = true) : allowedChar c = true := by
  simp [isSep] at h
  rcases h with (h | h) | h <;> subst h <;> decide

theorem isAlpha_allowed {c : Char} (h : c.isAlpha = true) : allowedChar c = true := by
  simp [allowedChar, h]

theorem isDigit_allowed {c : Char} (h : c.isDigit = true) : allowedChar c = true := by
  simp [allowedChar, h]

theorem parseNatPart_split {cs rest : List Char} {n : Nat}
    (h : parseNatPart cs = some (n, rest)) :
    ∃ ds, cs = ds ++ rest ∧ ∀ c ∈ ds, c.isDigit = true := by
  unfold parseNatPart at h
  by_cases he : (cs.takeWhile Char.isDigit).isEmpty
  · simp [he] at h
  · simp [he] at h
    refine ⟨cs.takeWhile Char.isDigit, ?_, fun c hc => List.mem_takeWhile_imp hc⟩
    rw [← h.2, List.takeWhile_append_dropWhile]

theorem parseRelease_split :
    ∀ (fuel : Nat) (cs rest : List Char) (rel : List Nat),
      parseRelease fuel cs = some (rel, rest) →
      ∃ ds, cs = ds ++ rest ∧ ∀ c ∈ ds, c.isDigit = true ∨ c = '.' := by
  intro fuel
  induction fuel with
  | zero => intro cs rest rel h; simp [parseRelease] at h
  | succ f ih =>
    intro cs rest rel h
    unfold parseRelease at h
    cases hpn : parseNatPart cs with
    | none => rw [hpn] at h; simp at h
    | some v =>
      obtain ⟨n, r1⟩ := v
      rw [hpn] at h
      obtain ⟨ds1, hcs, hds1⟩ := parseNatPart_split hpn
      simp only [] at h
      split at h
      · rename_i rest2
        split at h
        · cases hrec : parseRelease f rest2 with
          | none => rw [hrec] at h; simp at h
          | some w =>
            obtain ⟨ns, r⟩ := w
            rw [hrec] at h
            simp at h
            obtain ⟨hrel, hrest⟩ := h
            obtain ⟨ds2, hr2, hds2⟩ := ih rest2 r ns hrec
            refine ⟨ds1 ++ '.' :: ds2, ?_, ?_⟩
            · rw [hcs, hr2, ← hrest]
              simp
            · intro c hc
              rcases List.mem_append.mp hc with hc | hc
              · exact Or.inl (hds1 c hc)
              · rcases List.mem_cons.mp hc with hc | hc
                · exact Or.inr hc
                · exact hds2 c hc
        · simp at h
          obtain ⟨hrel, hrest⟩ := h
          exact ⟨ds1, by rw [hcs, ← hrest], fun c hc => Or.inl (hds1 c hc)⟩
      · simp at h
        obtain ⟨hrel, hrest⟩ := h
        exact ⟨ds1, by rw [hcs, ← hrest], fun c hc => Or.inl (hds1 c hc)⟩

theorem stripWord_split :
    ∀ (w cs r : List Char), stripWord w cs = some r → cs = w ++ r
  | [], cs, r, h => by
    simp [stripWord] at h
    rw [h]
    rfl
  | a :: ps, [], r, h => by simp [stripWord] at h
  | a :: ps, b :: rest, r, h => by
    unfold stripWord at h
    by_cases hab : a == b
    · have h2 := stripWord_split ps rest r (by simpa [hab] using h)
      have hab2 : a = b := by simpa using hab
      rw [hab2, h2]
      rfl
    · simp [hab] at h

theorem matchPhase_split :
    ∀ (tbl : List (List Char × Nat)) (cs r : List Char) (ph : Nat),
      (∀ wp ∈ tbl, ∀ c ∈ wp.1, c.isAlpha = true) →
      matchPhase tbl cs = some (ph, r) →
      ∃ w, cs = w ++ r ∧ ∀ c ∈ w, c.isAlpha = true
  | [], cs, r, ph, _, h => by simp [matchPhase] at h
  | (w, p0) :: tbl, cs, r, ph, halpha, h => by
    unfold matchPhase at h
    cases hs : stripWord w cs with
    | some r2 =>
      rw [hs] at h
      simp at h
      exact ⟨w, h.2 ▸ stripWord_split w cs r2 hs,
        fun c hc => halpha (w, p0) (List.mem_cons_self _ _) c hc⟩
    | none =>
      rw [hs] at h
      exact matchPhase_split tbl cs r ph
        (fun wp hwp => halpha wp (List.mem_cons_of_mem _ hwp)) h

theorem phaseTable_alpha : ∀ wp ∈ phaseTable, ∀ c ∈ wp.1, c.isAlpha = true := by
  decide

theorem dropSep_split (cs : List Char) :
    ∃ pre, cs = pre ++ dropSep cs ∧ ∀ c ∈ pre, isSep c = true := by
  cases cs with
  | nil => exact ⟨[], rfl, by simp⟩
  | cons c rest =>
    by_cases h : isSep c
    · exact ⟨[c], by simp [dropSep, h], by simpa using h⟩
    · exact ⟨[], by simp [dropSep, h], by simp⟩

theorem parsePre_chars {cs : List Char} {p : Option (Nat × Nat)}
    (h : parsePre cs = some p) : ∀ c ∈ cs, allowedChar c = true := by
  cases cs with
  | nil => simp
  | cons c0 r0 =>
    unfold parsePre at h
    simp only [] at h
    cases hm : matchPhase phaseTable (dropSep (c0 :: r0)) with
    | none => rw [hm] at h; simp at h
    | some v =>
      obtain ⟨ph, rest2⟩ := v
      rw [hm] at h
      simp only [] at h
      obtain ⟨pre1, hcs, hpre1⟩ := dropSep_split (c0 :: r0)
      obtain ⟨w, hw, hwalpha⟩ := matchPhase_split phaseTable (dropSep (c0 :: r0))
        rest2 ph phaseTable_alpha hm
      obtain ⟨pre2, hrest2, hpre2⟩ := dropSep_split rest2
      by_cases he : ((dropSep rest2).dropWhile Char.isDigit).isEmpty
      · have hdigits : ∀ c ∈ dropSep rest2, c.isDigit = true := by
          intro c hc
          have hdecomp := (List.takeWhile_append_dropWhile (p := Char.isDigit)
            (l := dropSep rest2)).symm
          rw [List.isEmpty_iff] at he
          rw [hdecomp, he, List.append_nil] at hc
          exact List.mem_takeWhile_imp hc
        intro c hc
        rw [hcs] at hc
        rcases List.mem_append.mp hc with hc | hc
        · exact isSep_allowed (hpre1 c hc)
        · rw [hw] at hc
          rcases List.mem_append.mp hc with hc | hc
          · exact isAlpha_allowed (hwalpha c hc)
          · rw [hrest2] at hc
            rcases List.mem_append.mp hc with hc | hc
            · exact isSep_allowed (hpre2 c hc)
            · exact isDigit_allowed (hdigits c hc)
      · rw [if_neg (by simpa using he)] at h
        simp at h

theorem parseVersionChars_chars {cs : List Char} {pv : PyVersion}
    (h : parseVersionChars cs = some pv) :
    ∀ c ∈ cs, allowedChar (Char.toLower c) = true := by
  unfold parseVersionChars at h
  simp only [] at h
  cases hr : parseRelease ((cs.map Char.toLower).length + 1) (cs.map Char.toLower) with
  | none => rw [hr] at h; simp at h
  | some v =>
    obtain ⟨rel, rest⟩ := v
    rw [hr] at h
    simp only [Option.some.injEq] at h
    cases hp : parsePre rest with
    | none => rw [hp] at h; simp at h
    | some p =>
      obtain ⟨ds, hsplit, hds⟩ :=
        parseRelease_split ((cs.map Char.toLower).length + 1)
          (cs.map Char.toLower) rest rel hr
      have hrest := parsePre_chars hp
      intro c hc
      have hmem : Char.toLower c ∈ cs.map Char.toLower :=
        List.mem_map_of_mem Char.toLower hc
      rw [hsplit] at hmem
      rcases List.mem_append.mp hmem with hm | hm
      · rcases hds (Char.toLower c) hm with hd | hd
        · exact isDigit_allowed hd
        · rw [hd]; decide
      · exact hrest (Char.toLower c) hm

theorem parsed_no_comma {cs : List Char} {pv : PyVersion}
    (h : parseVersionChars cs = some pv) :
    ∀ c ∈ cs, (c == ',') = false := by
  intro c hc
  by_contra hx
  simp at hx
  subst hx
  have := parseVersionChars_chars h ',' hc
  exact absurd this (by decide)

theorem parsed_no_ws {cs : List Char} {pv : PyVersion}
    (h : parseVersionChars cs = some pv) :
    ∀ c ∈ cs, isWS c = false := by
  intro c hc
  by_contra hx
  simp at hx
  have hall := parseVersionChars_chars h c hc
  rcases isWS_cases hx with h1 | h1 | h1 | h1 <;> subst h1 <;>
    exact absurd hall (by decide)

theorem dropWhile_eq_self_of_all {p : Char → Bool} {l : List Char}
    (h : ∀ c ∈ l, p c = false) : l.dropWhile p = l := by
  cases l with
  | nil => rfl
  | cons c r =>
    have := h c (List.mem_cons_self c r)
    simp [List.dropWhile_cons, this]

theorem trimChars_eq_self {l : List Char} (h : ∀ c ∈ l, isWS c = false) :
    trimChars l = l := by
  unfold trimChars
  rw [dropWhile_eq_self_of_all h]
  rw [dropWhile_eq_self_of_all (fun c hc => h c (List.mem_reverse.mp hc))]
  exact List.reverse_reverse l

theorem splitComma_no_comma :
    ∀ {l : List Char}, (∀ c ∈ l, (c == ',') = false) → splitComma l = [l]
  | [], _ => rfl
  | c :: rest, h => by
    have hc := h c (List.mem_cons_self c rest)
    have ih := splitComma_no_comma (fun x hx => h x (List.mem_cons_of_mem c hx))
    simp [splitComma, hc, ih]

theorem splitComma_append {l1 l2 : List Char}
    (h : ∀ c ∈ l1, (c == ',') = false) :
    splitComma (l1 ++ ',' :: l2) = l1 :: splitComma l2 := by
  induction l1 with
  | nil => simp [splitComma]
  | cons c r ih =>
    have hc := h c (List.mem_cons_self c r)
    have ih2 := ih (fun x hx => h x (List.mem_cons_of_mem c hx))
    simp only [List.cons_append]
    rw [splitComma, if_neg (by simp at hc ⊢; exact hc), ih2]

theorem renderRel_no_comma (u : List Nat) :
    ∀ c ∈ renderRel u, (c == ',') = false := by
  intro c hc
  by_contra hx
  rw [Bool.not_eq_false] at hx
  have hcc : c = ',' := by simpa using hx
  subst hcc
  rcases renderRel_chars u ',' hc with h | h
  · simp at h
  · simp at h

theorem renderRel_no_ws (u : List Nat) :
    ∀ c ∈ renderRel u, isWS c = false := by
  intro c hc
  rcases renderRel_chars u c hc with h | h
  · exact isDigit_not_ws h
  · subst h; decide

theorem parseClause_ge {base : List Char} {pb : PyVersion}
    (hb : parseVersionChars base = some pb)
    (hws : ∀ c ∈ base, isWS c = false) :
    parseClause ('>' :: '=' :: base) = some ⟨.ge, pb⟩ := by
  have hdw : List.dropWhile isWS base = base := dropWhile_eq_self_of_all hws
  simp [parseClause, hdw, hb]

theorem parseClause_lt_render (u : List Nat) (hu : u ≠ []) :
    parseClause ('<' :: renderRel u) = some ⟨.lt, ⟨u, none⟩⟩ := by
  obtain ⟨c, r, hc, hd⟩ := renderRel_head u hu
  have hce : (c == '=') = false := isDigit_ne_eqsign hd
  have hwsc : isWS c = false := isDigit_not_ws hd
  have hpv : parseVersionChars (c :: r) = some ⟨u, none⟩ := by
    rw [← hc]; exact parseVersionChars_renderRel u hu
  have hdw : List.dropWhile isWS (c :: r) = c :: r := by
    rw [List.dropWhile_cons_of_neg]
    simp [hwsc]
  rw [hc]
  simp [parseClause, hce, hdw, hpv]

theorem parseSpecSet_ge_lt {base : List Char} {pb : PyVersion} (u : List Nat)
    (hb : parseVersionChars base = some pb) (hu : u ≠ []) :
    parseSpecSet ('>' :: '=' :: (base ++ ',' :: '<' :: renderRel u)) =
      some [⟨.ge, pb⟩, ⟨.lt, ⟨u, none⟩⟩] := by
  have hnc := parsed_no_comma hb
  have hnw := parsed_no_ws hb
  have hl1c : ∀ c ∈ ('>' :: '=' :: base), (c == ',') = false := by
    intro c hc
    rcases List.mem_cons.mp hc with rfl | hc
    · decide
    · rcases List.mem_cons.mp hc with rfl | hc
      · decide
      · exact hnc c hc
  have hl1w : ∀ c ∈ ('>' :: '=' :: base), isWS c = false := by
    intro c hc
    rcases List.mem_cons.mp hc with rfl | hc
    · decide
    · rcases List.mem_cons.mp hc with rfl | hc
      · decide
      · exact hnw c hc
  have hl2c : ∀ c ∈ ('<' :: renderRel u), (c == ',') = false := by
    intro c hc
    rcases List.mem_cons.mp hc with rfl | hc
    · decide
    · exact renderRel_no_comma u c hc
  have hl2w : ∀ c ∈ ('<' :: renderRel u), isWS c = false := by
    intro c hc
    rcases List.mem_cons.mp hc with rfl | hc
    · decide
    · exact renderRel_no_ws u c hc
  have hshape : '>' :: '=' :: (base ++ ',' :: '<' :: renderRel u) =
      ('>' :: '=' :: base) ++ ',' :: ('<' :: renderRel u) := by simp
  rw [hshape]
  unfold parseSpecSet
  rw [splitComma_append hl1c, splitComma_no_comma hl2c]
  simp only [List.map_cons, List.map_nil]
  rw [trimChars_eq_self hl1w, trimChars_eq_self hl2w]
  simp only [List.filter_cons, List.filter_nil, List.isEmpty_cons, Bool.not_false,
    if_true]
  simp [List.mapM.loop, parseClause_ge hb hnw, parseClause_lt_render u hu]

theorem parseVersionChars_cons_nondigit {c : Char} {rest : List Char}
    (h : (Char.toLower c).isDigit = false) :
    parseVersionChars (c :: rest) = none := by
  unfold parseVersionChars
  simp only [List.map_cons]
  have hpn : parseNatPart (Char.toLower c :: (rest.map Char.toLower)) = none := by
    unfold parseNatPart
    simp [List.takeWhile_cons, h]
  simp [parseRelease, hpn]

theorem vlt_trailing_zero (pv : PyVersion) (M N : Nat) :
    vlt pv ⟨[M, N + 1], none⟩ = vlt pv ⟨[M, N + 1, 0], none⟩ := by
  unfold vlt cmpVersion
  have hs : stripTrailingZeros [M, N + 1, 0] = stripTrailingZeros [M, N + 1] := by
    simp [stripTrailingZeros]
  rw [hs]

theorem specSetContains_ge_lt_nopre {b u : PyVersion} (hb : b.pre = none)
    (pv : PyVersion) :
    specSetContains [⟨.ge, b⟩, ⟨.lt, u⟩] pv = true ↔
      pv.pre = none ∧ vle b pv = true ∧ vlt pv u = true := by
  have hpres : specSetPrereleases [⟨.ge, b⟩, ⟨.lt, u⟩] = false := by
    simp [specSetPrereleases, clausePrereleases, PyVersion.isPre, hb]
  unfold specSetContains
  rw [hpres]
  cases hp : pv.pre with
  | some q =>
    have : pv.isPre = true := by simp [PyVersion.isPre, hp]
    simp [this, hp]
  | none =>
    have hnp : pv.isPre = false := by simp [PyVersion.isPre, hp]
    simp [hnp, clauseContains, PyVersion.isPre, hp]

theorem compat_tilde_eval (v s : String) (pb : PyVersion)
    (hb : parseVersion s = some pb) :
    is_version_compatible v ("~" ++ s) =
      match parseVersion v with
      | none => false
      | some pv =>
        specSetContains
          [⟨.ge, pb⟩, ⟨.lt, ⟨[pb.major, pb.minor + 1], none⟩⟩] pv := by
  have hb2 : parseVersionChars s.data = some pb := hb
  have hdata : ("~" ++ s).data = '~' :: s.data := by
    rw [String.data_append]
    rfl
  have hts : parseVersion ("~" ++ s) = none := by
    rw [parseVersion, hdata]
    exact parseVersionChars_cons_nondigit (by decide)
  have hren : natChars pb.major ++ '.' :: natChars (pb.minor + 1) =
      renderRel [pb.major, pb.minor + 1] := rfl
  have htilde : applyTilde (("~" ++ s).data) = .ok (tildeRewrite s.data pb) := by
    rw [hdata]
    simp [applyTilde, hb2]
  have hcar : applyCaret (tildeRewrite s.data pb) = .ok (tildeRewrite s.data pb) := by
    rfl
  have hset : parseSpecSet (tildeRewrite s.data pb) =
      some [⟨.ge, pb⟩, ⟨.lt, ⟨[pb.major, pb.minor + 1], none⟩⟩] := by
    unfold tildeRewrite
    rw [hren]
    exact parseSpecSet_ge_lt [pb.major, pb.minor + 1] hb2 (by simp)
  unfold is_version_compatible compatAttempt
  rw [hts]
  cases hv : parseVersion v with
  | none => rfl
  | some pv =>
    simp only [htilde, hcar, hset]

/-- Claim C4 (amended): for a tilde specifier whose remainder parses as
M.N.P, is_version_compatible returns true exactly when the version parses,
is NOT a pre-release, and lies in the range M.N.P <= v < M.(N+1).0 — the
rewritten range carries no pre-release clause, so pre-release versions are
refused even inside the bounds; the concrete scenario of the spec holds:
2.1.5 satisfies ~2.1.0 and not ~2.2.0. -/
theorem tilde_shorthand_range :
    (∀ (v s : String) (M N P : Nat),
      parseVersion s = some ⟨[M, N, P], none⟩ →
      (is_version_compatible v ("~" ++ s) = true ↔
        ∃ pv, parseVersion v = some pv ∧ pv.pre = none ∧
          vle ⟨[M, N, P], none⟩ pv = true ∧
          vlt pv ⟨[M, N + 1, 0], none⟩ = true)) ∧
    is_version_compatible "2.1.5" "~2.1.0" = true ∧
    is_version_compatible "2.1.5" "~2.2.0" = false := by
  refine ⟨fun v s M N P hb => ?_, by decide, by decide⟩
  rw [compat_tilde_eval v s ⟨[M, N, P], none⟩ hb]
  cases hv : parseVersion v with
  | none => simp
  | some pv =>
    have hmaj : PyVersion.major ⟨[M, N, P], none⟩ = M := rfl
    have hmin : PyVersion.minor ⟨[M, N, P], none⟩ = N := rfl
    rw [hmaj, hmin]
    rw [specSetContains_ge_lt_nopre rfl pv]
    rw [vlt_trailing_zero pv M N]
    constructor
    · rintro ⟨h1, h2, h3⟩
      exact ⟨pv, rfl, h1, h2, h3⟩
    · rintro ⟨pv2, hpv2, h1, h2, h3⟩
      rw [show pv2 = pv from by injection hpv2.symm.trans rfl] at h1 h2 h3
      exact ⟨h1, h2, h3⟩

/-- Counterexample to claim C4 as stated: 2.1.5-alpha parses, and under the
version order it lies within 2.1.0 <= v < 2.2.0, yet is_version_compatible
with ~2.1.0 returns false because pre-releases are refused by a range
without a pre-release clause. -/
theorem tilde_shorthand_prerelease_cex :
    is_version_compatible "2.1.5-alpha" "~2.1.0" = false ∧
      parseVersion "2.1.5-alpha" = some ⟨[2, 1, 5], some (0, 0)⟩ ∧
      vle ⟨[2, 1, 0], none⟩ ⟨[2, 1, 5], some (0, 0)⟩ = true ∧
      vlt ⟨[2, 1, 5], some (0, 0)⟩ ⟨[2, 2, 0], none⟩ = true := by
  exact ⟨by decide, by decide, by decide, by decide⟩

/-- Witness for claim C4 at the concrete scenario of the spec. -/
theorem tilde_shorthand_range_witness :
    parseVersion "2.1.0" = some ⟨[2, 1, 0], none⟩ ∧
      (is_version_compatible "2.1.5" ("~" ++ "2.1.0") = true ↔
        ∃ pv, parseVersion "2.1.5" = some pv ∧ pv.pre = none ∧
          vle ⟨[2, 1, 0], none⟩ pv = true ∧
          vlt pv ⟨[2, 2, 0], none⟩ = true) :=
  ⟨by decide, tilde_shorthand_range.1 "2.1.5" "2.1.0" 2 1 0 (by decide)⟩

theorem caretRewrite_renderRel (base : List Char) (pb : PyVersion) :
    caretRewrite base pb =
      '>' :: '=' :: (base ++ ',' :: '<' ::
        renderRel (caretUpper pb.major pb.minor pb.micro)) := by
  unfold caretRewrite caretUpper
  by_cases h1 : pb.major > 0
  · simp only [h1, if_true]
    rfl
  · by_cases h2 : pb.minor > 0
    · simp only [h1, h2, if_false, if_true]
      rfl
    · simp only [h1, h2, if_false]
      rfl

theorem caretUpper_ne_nil (M N P : Nat) : caretUpper M N P ≠ [] := by
  unfold caretUpper
  by_cases h1 : M > 0
  · simp [h1]
  · by_cases h2 : N > 0 <;> simp [h1, h2]

theorem compat_caret_eval (v s : String) (pb : PyVersion)
    (hb : parseVersion s = some pb) :
    is_version_compatible v ("^" ++ s) =
      match parseVersion v with
      | none => false
      | some pv =>
        specSetContains
          [⟨.ge, pb⟩,
           ⟨.lt, ⟨caretUpper pb.major pb.minor pb.micro, none⟩⟩] pv := by
  have hb2 : parseVersionChars s.data = some pb := hb
  have hdata : ("^" ++ s).data = '^' :: s.data := by
    rw [String.data_append]
    rfl
  have hts : parseVersion ("^" ++ s) = none := by
    rw [parseVersion, hdata]
    exact parseVersionChars_cons_nondigit (by decide)
  have htilde : applyTilde (("^" ++ s).data) = .ok ('^' :: s.data) := by
    rw [hdata]
    rfl
  have hcar : applyCaret ('^' :: s.data) = .ok (caretRewrite s.data pb) := by
    simp [applyCaret, hb2]
  have hset : parseSpecSet (caretRewrite s.data pb) =
      some [⟨.ge, pb⟩,
        ⟨.lt, ⟨caretUpper pb.major pb.minor pb.micro, none⟩⟩] := by
    rw [caretRewrite_renderRel]
    exact parseSpecSet_ge_lt (caretUpper pb.major pb.minor pb.micro) hb2
      (caretUpper_ne_nil pb.major pb.minor pb.micro)
  unfold is_version_compatible compatAttempt
  rw [hts]
  cases hv : parseVersion v with
  | none => rfl
  | some pv =>
    simp only [htilde, hcar, hset]

/-- Claim C5 (amended): for a caret specifier whose remainder parses as
M.N.P, is_version_compatible returns true exactly when the version parses,
is NOT a pre-release, and satisfies M.N.P <= v below the caret upper bound
((M+1).0.0 when M>0, else 0.(N+1).0 when N>0, else 0.0.(P+1)) — as for the
tilde range, pre-release versions are refused even inside the bounds; the
concrete rejected instances of the spec hold: 2.0.0 against ^1.2.0 and
0.3.0 against ^0.2.0 are rejected, while 1.3.0 against ^1.2.0 and 0.2.1
against ^0.2.0 are accepted. -/
theorem caret_shorthand_range :
    (∀ (v s : String) (M N P : Nat),
      parseVersion s = some ⟨[M, N, P], none⟩ →
      (is_version_compatible v ("^" ++ s) = true ↔
        ∃ pv, parseVersion v = some pv ∧ pv.pre = none ∧
          vle ⟨[M, N, P], none⟩ pv = true ∧
          vlt pv ⟨caretUpper M N P, none⟩ = true)) ∧
    is_version_compatible "2.0.0" "^1.2.0" = false ∧
    is_version_compatible "1.3.0" "^1.2.0" = true ∧
    is_version_compatible "0.3.0" "^0.2.0" = false ∧
    is_version_compatible "0.2.1" "^0.2.0" = true := by
  refine ⟨fun v s M N P hb => ?_, by decide, by decide, by decide, by decide⟩
  rw [compat_caret_eval v s ⟨[M, N, P], none⟩ hb]
  have hmaj : PyVersion.major ⟨[M, N, P], none⟩ = M := rfl
  have hmin : PyVersion.minor ⟨[M, N, P], none⟩ = N := rfl
  have hmic : PyVersion.micro ⟨[M, N, P], none⟩ = P := rfl
  rw [hmaj, hmin, hmic]
  cases hv : parseVersion v with
  | none => simp
  | some pv =>
    rw [specSetContains_ge_lt_nopre rfl pv]
    constructor
    · rintro ⟨h1, h2, h3⟩
      exact ⟨pv, rfl, h1, h2, h3⟩
    · rintro ⟨pv2, hpv2, h1, h2, h3⟩
      rw [show pv2 = pv from by injection hpv2.symm.trans rfl] at h1 h2 h3
      exact ⟨h1, h2, h3⟩

/-- Counterexample to claim C5 as stated: 1.5.0-alpha parses and lies
within 1.0.0 <= v < 2.0.0, yet is_version_compatible with ^1.0.0 returns
false because pre-releases are refused by the rewritten range. -/
theorem caret_shorthand_prerelease_cex :
    is_version_compatible "1.5.0-alpha" "^1.0.0" = false ∧
      parseVersion "1.5.0-alpha" = some ⟨[1, 5, 0], some (0, 0)⟩ ∧
      vle ⟨[1, 0, 0], none⟩ ⟨[1, 5, 0], some (0, 0)⟩ = true ∧
      vlt ⟨[1, 5, 0], some (0, 0)⟩ ⟨[2, 0, 0], none⟩ = true := by
  exact ⟨by decide, by decide, by decide, by decide⟩

/-- Witness for claim C5 at version 1.3.0 against caret base 1.2.0. -/
theorem caret_shorthand_range_witness :
    parseVersion "1.2.0" = some ⟨[1, 2, 0], none⟩ ∧
      (is_version_compatible "1.3.0" ("^" ++ "1.2.0") = true ↔
        ∃ pv, parseVersion "1.3.0" = some pv ∧ pv.pre = none ∧
          vle ⟨[1, 2, 0], none⟩ pv = true ∧
          vlt pv ⟨caretUpper 1 2 0, none⟩ = true) :=
  ⟨by decide, caret_shorthand_range.1 "1.3.0" "1.2.0" 1 2 0 (by decide)⟩

theorem mem_filesOf {nm : String} {entries : List FsEntry} :
    nm ∈ filesOf entries ↔ FsEntry.file nm ∈ entries := by
  unfold filesOf
  rw [List.mem_filterMap]
  constructor
  · rintro ⟨e, he, hm⟩
    cases e with
    | file n2 => simp at hm; rwa [hm] at he
    | dir _ _ => simp at hm
  · intro h
    exact ⟨.file nm, h, rfl⟩

theorem mem_dirsOf {nm : String} {c : List FsEntry} {entries : List FsEntry} :
    (nm, c) ∈ dirsOf entries ↔ FsEntry.dir nm c ∈ entries := by
  unfold dirsOf
  rw [List.mem_filterMap]
  constructor
  · rintro ⟨e, he, hm⟩
    cases e with
    | file _ => simp at hm
    | dir n2 c2 =>
      simp at hm
      rw [← hm.1, ← hm.2]
      exact he
  · intro h
    exact ⟨.dir nm c, h, rfl⟩

theorem nodupStr_cons {s : String} {l : List String}
    (h : nodupStr (s :: l) = true) : (s ∉ l) ∧ nodupStr l = true := by
  unfold nodupStr at h
  simp only [Bool.and_eq_true, Bool.not_eq_true] at h
  refine ⟨fun hm => ?_, h.2⟩
  have hcon : l.contains s = true := by
    rw [List.contains_eq_any_beq]
    exact List.any_eq_true.mpr ⟨s, hm, by simp⟩
  rw [hcon] at h
  simp at h

theorem removeFirstNamed_eq_filter {x : String} :
    ∀ {l : List (String × List FsEntry)},
      nodupStr (l.map Prod.fst) = true →
      removeFirstNamed x l = l.filter (fun d => !(d.1 == x))
  | [], _ => rfl
  | d :: rest, h => by
    rw [List.map_cons] at h
    obtain ⟨hnm, hrest⟩ := nodupStr_cons h
    unfold removeFirstNamed
    by_cases hd : d.1 == x
    · have hx : d.1 = x := by simpa using hd
      rw [if_pos hd, List.filter_cons_of_neg (by simp [hd])]
      symm
      rw [List.filter_eq_self]
      intro a ha
      simp only [Bool.not_eq_true']
      by_contra hax
      simp only [Bool.not_eq_false] at hax
      have hax2 : a.1 = x := by simpa using hax
      have hmem : a.1 ∈ rest.map Prod.fst := List.mem_map_of_mem Prod.fst ha
      rw [hax2, ← hx] at hmem
      exact hnm hmem
    · rw [if_neg hd, List.filter_cons_of_pos (by simp [hd])]
      rw [removeFirstNamed_eq_filter hrest]

theorem nodupStr_of_sublist :
    ∀ {l1 l2 : List String}, l1.Sublist l2 → nodupStr l2 = true → nodupStr l1 = true := by
  intro l1 l2 hs
  induction hs with
  | slnil => intro h; exact h
  | cons a hs ih =>
    intro h
    exact ih (nodupStr_cons h).2
  | cons₂ a hs ih =>
    intro h
    obtain ⟨hnm, hrest⟩ := nodupStr_cons h
    unfold nodupStr
    simp only [Bool.and_eq_true]
    refine ⟨?_, ih hrest⟩
    simp only [Bool.not_eq_true']
    by_contra hc
    simp only [Bool.not_eq_false] at hc
    rw [List.contains_eq_any_beq] at hc
    obtain ⟨b, hb, hab⟩ := List.any_eq_true.mp hc
    have : a = b := by simpa using hab
    exact hnm (this ▸ hs.subset hb)

theorem prunedDirs_eq_filter {entries : List FsEntry}
    (h : nodupStr ((dirsOf entries).map Prod.fst) = true) :
    prunedDirs entries = (dirsOf entries).filter
      (fun d => !(d.1 == "__jac_gen__") && !(d.1 == "__pycache__")) := by
  unfold prunedDirs
  rw [removeFirstNamed_eq_filter h]
  have h2 : nodupStr (((dirsOf entries).filter
      (fun d => !(d.1 == "__jac_gen__"))).map Prod.fst) = true := by
    refine nodupStr_of_sublist ?_ h
    exact List.Sublist.map Prod.fst (List.filter_sublist _)
  rw [removeFirstNamed_eq_filter h2]
  rw [List.filter_filter]
  apply List.filter_congr
  intro a _
  rw [Bool.and_comm]

theorem wfLevel_parts {entries : List FsEntry} (h : wfLevel entries = true) :
    (∀ e ∈ entries, hasSlash (entryName e) = false) ∧
    nodupStr ((dirsOf entries).map Prod.fst) = true ∧
    (∀ d ∈ dirsOf entries, wfLevel d.2 = true) := by
  rw [wfLevel_eq] at h
  simp only [Bool.and_eq_true, List.all_eq_true] at h
  exact ⟨fun e he => by simpa using h.1.1 e he, h.1.2, fun d hd => h.2 d hd⟩

theorem tgz_mem_manifest (entries : List FsEntry) (pre p : String)
    (hwf : wfLevel entries = true) :
    p ∈ tgzMembers pre entries ↔ p ∈ manifestLevel pre entries := by
  obtain ⟨hslash, hnodup, hchild⟩ := wfLevel_parts hwf
  rw [tgzMembers_eq, prunedDirs_eq_filter hnodup]
  unfold manifestLevel
  rw [List.mem_append]
  constructor
  · rintro (hf | hd)
    · rw [List.mem_map] at hf
      obtain ⟨nm, hnm, hp⟩ := hf
      rw [List.mem_flatMap]
      exact ⟨.file nm, mem_filesOf.mp hnm, by rw [manifestOf_file, hp]; simp⟩
    · rw [List.mem_flatMap] at hd
      obtain ⟨d, hdmem, hdp⟩ := hd
      rw [List.mem_filter] at hdmem
      obtain ⟨hdd, hname⟩ := hdmem
      have ih := tgz_mem_manifest d.2 (pre ++ d.1 ++ "/") p (hchild d hdd)
      rw [List.mem_flatMap]
      refine ⟨.dir d.1 d.2, mem_dirsOf.mp (by rwa [Prod.mk.eta]), ?_⟩
      rw [manifestOf_dir]
      have hne : ¬(d.1 = "__jac_gen__" ∨ d.1 = "__pycache__") := by
        simp only [Bool.and_eq_true, Bool.not_eq_true'] at hname
        push_neg
        constructor
        · intro hx; rw [hx] at hname; simp at hname
        · intro hx; rw [hx] at hname; simp at hname
      rw [if_neg hne]
      exact ih.mp hdp
  · rw [List.mem_flatMap]
    rintro ⟨e, he, hpe⟩
    cases e with
    | file nm =>
      rw [manifestOf_file] at hpe
      simp at hpe
      exact Or.inl (List.mem_map.mpr ⟨nm, mem_filesOf.mpr he, hpe.symm⟩)
    | dir nm c =>
      rw [manifestOf_dir] at hpe
      by_cases hex : nm = "__jac_gen__" ∨ nm = "__pycache__"
      · rw [if_pos hex] at hpe
        simp at hpe
      · rw [if_neg hex] at hpe
        have hdd : (nm, c) ∈ dirsOf entries := mem_dirsOf.mpr he
        have ih := tgz_mem_manifest c (pre ++ nm ++ "/") p (hchild (nm, c) hdd)
        refine Or.inr (List.mem_flatMap.mpr ⟨(nm, c), ?_, ih.mpr hpe⟩)
        rw [List.mem_filter]
        push_neg at hex
        refine ⟨hdd, ?_⟩
        simp only [Bool.and_eq_true, Bool.not_eq_true']
        constructor
        · simpa using hex.1
        · simpa using hex.2
termination_by sizeOf entries
decreasing_by
  · exact sizeOf_lt_of_mem_dirsOf (Prod.mk.eta (p := d) ▸ hdd)
  · exact sizeOf_lt_of_mem_dirsOf hdd

theorem tgz_mem_shape (entries : List FsEntry) (pre p : String)
    (h : p ∈ tgzMembers pre entries) : ∃ suf, p = pre ++ suf := by
  rw [tgzMembers_eq] at h
  rcases List.mem_append.mp h with hf | hd
  · rw [List.mem_map] at hf
    obtain ⟨nm, _, hp⟩ := hf
    exact ⟨nm, hp.symm⟩
  · rw [List.mem_flatMap] at hd
    obtain ⟨d, hdd, hdp⟩ := hd
    obtain ⟨s2, hs2⟩ := tgz_mem_shape d.2 (pre ++ d.1 ++ "/") p hdp
    refine ⟨d.1 ++ "/" ++ s2, ?_⟩
    rw [hs2]
    simp [String.append_assoc]
termination_by sizeOf entries
decreasing_by
  exact sizeOf_lt_of_mem_prunedDirs (Prod.mk.eta (p := d) ▸ hdd)

theorem firstSlash_unique :
    ∀ (l1 l2 r1 r2 : List Char), '/' ∉ l1 → '/' ∉ l2 →
      l1 ++ '/' :: r1 = l2 ++ '/' :: r2 → l1 = l2 ∧ r1 = r2
  | [], [], r1, r2, _, _, h => by
    simp at h
    exact ⟨rfl, h⟩
  | [], c :: l2, r1, r2, h1, h2, h => by
    simp at h
    exact absurd (h.1 ▸ List.mem_cons_self c l2) h2
  | c :: l1, [], r1, r2, h1, h2, h => by
    simp at h
    exact absurd (h.1 ▸ List.mem_cons_self c l1) h1
  | a :: l1, b :: l2, r1, r2, h1, h2, h => by
    simp only [List.cons_append, List.cons.injEq] at h
    obtain ⟨hab, ht⟩ := h
    obtain ⟨he, hr⟩ := firstSlash_unique l1 l2 r1 r2
      (fun hm => h1 (List.mem_cons_of_mem a hm))
      (fun hm => h2 (List.mem_cons_of_mem b hm)) ht
    exact ⟨by rw [hab, he], hr⟩

theorem hasSlash_false_not_mem {s : String} (h : hasSlash s = false) :
    '/' ∉ s.data := by
  intro hm
  unfold hasSlash at h
  rw [List.contains_eq_any_beq] at h
  have hx : s.data.any (fun c => '/' == c) = true :=
    List.any_eq_true.mpr ⟨'/', hm, by simp⟩
  rw [hx] at h
  exact absurd h (by simp)

theorem excluded_not_lead (x : String)
    (hx : x = "__jac_gen__" ∨ x = "__pycache__")
    (entries : List FsEntry) (hwf : wfLevel entries = true)
    (p : String) (hp : p ∈ tgzMembers "" entries) (rest : String) :
    p ≠ x ++ "/" ++ rest := by
  intro hcontra
  obtain ⟨hslash, hnodup, hchild⟩ := wfLevel_parts hwf
  have hxs : '/' ∉ x.data := by
    rcases hx with rfl | rfl <;> decide
  rw [tgzMembers_eq, prunedDirs_eq_filter hnodup] at hp
  rcases List.mem_append.mp hp with hf | hd
  · rw [List.mem_map] at hf
    obtain ⟨nm, hnm, hpnm⟩ := hf
    have hns : hasSlash nm = false := by
      have := hslash (.file nm) (mem_filesOf.mp hnm)
      simpa [entryName] using this
    have hdata : p.data = nm.data := by
      rw [← hpnm, String.empty_append]
    have hmem : '/' ∈ p.data := by
      rw [hcontra]
      simp [String.data_append]
    rw [hdata] at hmem
    exact hasSlash_false_not_mem hns hmem
  · rw [List.mem_flatMap] at hd
    obtain ⟨d, hdmem, hdp⟩ := hd
    rw [List.mem_filter] at hdmem
    obtain ⟨hdd, hname⟩ := hdmem
    obtain ⟨s2, hs2⟩ := tgz_mem_shape d.2 ("" ++ d.1 ++ "/") p hdp
    have hd1s : '/' ∉ d.1.data := by
      apply hasSlash_false_not_mem
      have := hslash (.dir d.1 d.2) (mem_dirsOf.mp (Prod.mk.eta (p := d) ▸ hdd))
      simpa [entryName] using this
    have hdataeq : d.1.data ++ '/' :: s2.data = x.data ++ '/' :: rest.data := by
      have hcd := congrArg String.data (hs2.symm.trans hcontra)
      simpa [String.data_append, String.empty_append] using hcd
    have heq := firstSlash_unique d.1.data x.data s2.data rest.data hd1s hxs hdataeq
    have hdx : d.1 = x := String.ext heq.1
    rcases hx with hxx | hxx <;>
      (rw [hdx, hxx] at hname; simp at hname)

/-- Claim C9: compress_package_to_tgz returns the output filename and the
member set of the archive is exactly the spec-side Archive Manifest — the
source-relative paths of the regular files minus every subtree rooted at a
directory named __jac_gen__ or __pycache__ at any depth (for any source
tree an operating-system walk can produce: sibling directory names
distinct, no path separator inside a name); no member starts with an
excluded directory name followed by the path separator, and the concrete
scenario yields exactly file1.txt and subdir/file2.txt. -/
theorem compress_manifest_exact :
    (∀ (tree : List FsEntry) (out : String),
      compress_package_to_tgz tree out = (tgzMembers "" tree, out)) ∧
    (∀ tree : List FsEntry, wfLevel tree = true → ∀ p : String,
      p ∈ tgzMembers "" tree ↔ p ∈ manifestLevel "" tree) ∧
    (∀ tree : List FsEntry, wfLevel tree = true →
      ∀ p ∈ tgzMembers "" tree,
        (∀ rest, p ≠ "__jac_gen__/" ++ rest) ∧
        (∀ rest, p ≠ "__pycache__/" ++ rest)) ∧
    tgzMembers "" exampleTree = ["file1.txt", "subdir/file2.txt"] := by
  refine ⟨fun tree out => rfl, fun tree hwf p => tgz_mem_manifest tree "" p hwf,
    fun tree hwf p hp => ⟨fun rest => ?_, fun rest => ?_⟩, ?_⟩
  · have h := excluded_not_lead "__jac_gen__" (Or.inl rfl) tree hwf p hp rest
    intro hcontra
    exact h (by rw [hcontra]; rfl)
  · have h := excluded_not_lead "__pycache__" (Or.inr rfl) tree hwf p hp rest
    intro hcontra
    exact h (by rw [hcontra]; rfl)
  · have h1 : tgzMembers "subdir/" [.file "file2.txt"] = ["subdir/file2.txt"] := by
      rw [tgzMembers_eq]
      simp [filesOf, prunedDirs, dirsOf, removeFirstNamed]
    rw [tgzMembers_eq]
    simp [exampleTree, filesOf, prunedDirs, dirsOf, removeFirstNamed, h1]

/-- Witness for claim C9 at the concrete source tree of the spec. -/
theorem compress_manifest_exact_witness :
    wfLevel exampleTree = true ∧
      ("subdir/file2.txt" ∈ tgzMembers "" exampleTree ↔
        "subdir/file2.txt" ∈ manifestLevel "" exampleTree) := by
  have h1 : wfLevel [FsEntry.file "file2.txt"] = true := by
    rw [wfLevel_eq]
    simp [filesOf, dirsOf, nodupStr, hasSlash, entryName]
  have h2 : wfLevel [FsEntry.file "x"] = true := by
    rw [wfLevel_eq]
    simp [filesOf, dirsOf, nodupStr, hasSlash, entryName]
  have h3 : wfLevel [FsEntry.file "y"] = true := by
    rw [wfLevel_eq]
    simp [filesOf, dirsOf, nodupStr, hasSlash, entryName]
  have hwf : wfLevel exampleTree = true := by
    rw [wfLevel_eq]
    simp [exampleTree, filesOf, dirsOf, nodupStr, hasSlash, entryName, h1, h2, h3]
  exact ⟨hwf, compress_manifest_exact.2.1 exampleTree hwf "subdir/file2.txt"⟩

theorem mem_removeFirstNamed_of_ne {x : String} {c : String × List FsEntry} :
    ∀ {l : List (String × List FsEntry)}, c ∈ l → c.1 ≠ x →
      c ∈ removeFirstNamed x l
  | [], h, _ => by simp at h
  | d :: rest, h, hne => by
    unfold removeFirstNamed
    by_cases hd : d.1 == x
    · rw [if_pos hd]
      rcases List.mem_cons.mp h with rfl | h2
      · exact absurd (by simpa using hd) hne
      · exact h2
    · rw [if_neg hd]
      rcases List.mem_cons.mp h with rfl | h2
      · exact List.mem_cons_self c _
      · exact List.mem_cons_of_mem d (mem_removeFirstNamed_of_ne h2 hne)

theorem hasFileAt_tgz_mem :
    ∀ (ds : List String) (entries : List FsEntry) (pre fname : String),
      (∀ d ∈ ds, d ≠ "__jac_gen__" ∧ d ≠ "__pycache__") →
      hasFileAt entries ds fname = true →
      pre ++ joinPath ds fname ∈ tgzMembers pre entries
  | [], entries, pre, fname, _, h => by
    unfold hasFileAt at h
    rw [List.any_eq_true] at h
    obtain ⟨e, he, hm⟩ := h
    cases e with
    | dir _ _ => simp at hm
    | file n2 =>
      have hn2 : n2 = fname := by simpa using hm
      subst hn2
      rw [tgzMembers_eq]
      exact List.mem_append_left _ (List.mem_map.mpr ⟨n2, mem_filesOf.mpr he, rfl⟩)
  | d :: ds, entries, pre, fname, hds, h => by
    unfold hasFileAt at h
    rw [List.any_eq_true] at h
    obtain ⟨c, hc, hcm⟩ := h
    rw [Bool.and_eq_true] at hcm
    have hc1 : c.1 = d := by simpa using hcm.1
    have hdne := hds d (List.mem_cons_self d ds)
    have hrec := hasFileAt_tgz_mem ds c.2 (pre ++ d ++ "/") fname
      (fun d2 hd2 => hds d2 (List.mem_cons_of_mem d hd2)) hcm.2
    have hcp : c ∈ prunedDirs entries := by
      unfold prunedDirs
      apply mem_removeFirstNamed_of_ne
      · exact mem_removeFirstNamed_of_ne hc (by rw [hc1]; exact hdne.1)
      · rw [hc1]; exact hdne.2
    rw [tgzMembers_eq]
    apply List.mem_append_right
    rw [List.mem_flatMap]
    refine ⟨c, hcp, ?_⟩
    rw [hc1]
    show pre ++ joinPath (d :: ds) fname ∈ tgzMembers (pre ++ d ++ "/") c.2
    have hjoin : pre ++ joinPath (d :: ds) fname =
        pre ++ d ++ "/" ++ joinPath ds fname := by
      show pre ++ (d ++ "/" ++ joinPath ds fname) = pre ++ d ++ "/" ++ joinPath ds fname
      simp [String.append_assoc]
    rw [hjoin]
    exact hrec

/-- Claim C10 (amended): the exclusion of compress_package_to_tgz applies
only to directories — a regular file named __jac_gen__ or __pycache__ IS
archived under its source-relative path, provided its ancestor directories
are not themselves excluded (a file inside a pruned subtree disappears with
the subtree), since pruning removes names only from the directory list of
the walk. -/
theorem excluded_name_file_archived :
    ∀ (entries : List FsEntry) (ds : List String) (fname : String),
      (fname = "__jac_gen__" ∨ fname = "__pycache__") →
      (∀ d ∈ ds, d ≠ "__jac_gen__" ∧ d ≠ "__pycache__") →
      hasFileAt entries ds fname = true →
      joinPath ds fname ∈ tgzMembers "" entries := by
  intro entries ds fname _ hds h
  have := hasFileAt_tgz_mem ds entries "" fname hds h
  rwa [String.empty_append] at this

/-- Counterexample to claim C10 as stated: a source tree holding the
regular file __jac_gen__ inside the directory __pycache__ contains such a
file at depth one, yet the archive is empty — the file vanishes with the
pruned subtree. -/
theorem excluded_name_file_cex :
    hasFileAt [FsEntry.dir "__pycache__" [FsEntry.file "__jac_gen__"]]
        ["__pycache__"] "__jac_gen__" = true ∧
      tgzMembers "" [FsEntry.dir "__pycache__" [FsEntry.file "__jac_gen__"]] =
        [] := by
  refine ⟨by decide, ?_⟩
  rw [tgzMembers_eq]
  simp [filesOf, prunedDirs, dirsOf, removeFirstNamed]

/-- Witness for claim C10: the file sub/__jac_gen__ is archived. -/
theorem excluded_name_file_archived_witness :
    joinPath ["sub"] "__jac_gen__" = "sub/__jac_gen__" ∧
      "sub/__jac_gen__" ∈
        tgzMembers "" [FsEntry.dir "sub" [FsEntry.file "__jac_gen__"]] := by
  refine ⟨rfl, ?_⟩
  have h := excluded_name_file_archived
    [FsEntry.dir "sub" [FsEntry.file "__jac_gen__"]] ["sub"] "__jac_gen__"
    (Or.inl rfl) (by decide) (by decide)
  rwa [show joinPath ["sub"] "__jac_gen__" = "sub/__jac_gen__" from rfl] at h
